import Mathlib

/-!
Shallow embedding of the prefix-tree (trie) implementation in
src/python-trie/trie.py, together with proofs of the specified properties.

A Python `Node` holds an optional single-character `key`, a boolean
`terminal` flag, an optional stored string `value`, and a `children`
mapping from characters to child nodes.  Python dicts preserve insertion
order and have unique keys, so `children` is modelled as an association
list `List (Char × Node)`: lookup finds the first matching key, update
replaces the entry in place, and a fresh key is appended at the end,
exactly as a Python dict behaves.
-/

inductive Node : Type where
  | mk (key : Option Char) (terminal : Bool) (value : Option String)
       (children : List (Char × Node))

/-- Projection for the `key` field of a `Node`. -/
def Node.key : Node → Option Char
  | .mk k _ _ _ => k

/-- Projection for the `terminal` field of a `Node`. -/
def Node.terminal : Node → Bool
  | .mk _ b _ _ => b

/-- Projection for the `value` field of a `Node`. -/
def Node.value : Node → Option String
  | .mk _ _ v _ => v

/-- Projection for the `children` field of a `Node`. -/
def Node.children : Node → List (Char × Node)
  | .mk _ _ _ ch => ch

/-- `children.get(ch)` on a Python dict: first entry with the given key. -/
def lookupChild : List (Char × Node) → Char → Option Node
  | [], _ => none
  | (k, v) :: rest, c => if k = c then some v else lookupChild rest c

/-- `children[ch] = node` on a Python dict when `ch` is already a key:
the entry is replaced in place, keeping its position. -/
def updateChild : List (Char × Node) → Char → Node → List (Char × Node)
  | [], _, _ => []
  | (k, v) :: rest, c, n => if k = c then (c, n) :: rest else (k, v) :: updateChild rest c n

/-- The character-walk loop shared by `exists`, `search` and `delete`:
follow child links for each character in turn, returning the node
reached, or `none` as soon as a link is missing. -/
def walk : List Char → Node → Option Node
  | [], n => some n
  | c :: cs, .mk _ _ _ ch =>
    match lookupChild ch c with
    | none => none
    | some child => walk cs child

/-- `Trie.insert`, recursing over the remaining characters: descend into
an existing child, or create a fresh node (key set, not terminal, no
value, no children) and attach it at the end of the dict; after the last
character, set `terminal := true` and `value := s`. -/
def insertAux (s : String) : List Char → Node → Node
  | [], .mk k _ _ ch => .mk k true (some s) ch
  | c :: cs, .mk k b v ch =>
    match lookupChild ch c with
    | some child => .mk k b v (updateChild ch c (insertAux s cs child))
    | none => .mk k b v (ch ++ [(c, insertAux s cs (.mk (some c) false none []))])

/-- `Trie.exists`: walk the characters; a missing link returns `false`,
otherwise the answer is the `terminal` flag of the node reached. -/
def existsAux : List Char → Node → Bool
  | [], .mk _ b _ _ => b
  | c :: cs, .mk _ _ _ ch =>
    match lookupChild ch c with
    | none => false
    | some child => existsAux cs child

/-- `Trie.delete`, recursing over the characters: a missing link returns
`false` with the trie unchanged; at the end of the path, if the node is
terminal and stores exactly `s`, clear `terminal` and `value` and return
`true`, otherwise return `false` and change nothing. -/
def deleteAux (s : String) : List Char → Node → Bool × Node
  | [], .mk k b v ch =>
    if b = true ∧ v = some s then
      (true, .mk k false none ch)
    else
      (false, .mk k b v ch)
  | c :: cs, .mk k b v ch =>
    match lookupChild ch c with
    | none => (false, .mk k b v ch)
    | some child =>
      let r := deleteAux s cs child
      (r.1, .mk k b v (updateChild ch c r.2))

mutual

/-- Number of nodes of the subtree rooted at a node (the node itself
plus all descendants reachable through `children`). -/
def Node.size : Node → Nat
  | .mk _ _ _ ch => 1 + sizeList ch

/-- Total number of nodes in the subtrees of a children list. -/
def sizeList : List (Char × Node) → Nat
  | [] => 0
  | pr :: rest => Node.size pr.2 + sizeList rest

end

/-- Total subtree size of a worklist of nodes. -/
def queueSize : List Node → Nat
  | [] => 0
  | n :: rest => Node.size n + queueSize rest

theorem queueSize_append (a b : List Node) :
    queueSize (a ++ b) = queueSize a + queueSize b := by
  induction a with
  | nil => simp [queueSize]
  | cons n rest ih => simp [queueSize, ih]; omega

theorem queueSize_map_snd (ch : List (Char × Node)) :
    queueSize (ch.map Prod.snd) = sizeList ch := by
  induction ch with
  | nil => simp [queueSize, sizeList]
  | cons pr rest ih => simp [queueSize, sizeList, ih]

/-- The subtree-collection loop of `Trie.search`: while the worklist is
non-empty, pop the last node (`queue.pop()`), push all its children in
dict order, and if the node is terminal record its stored value.  The
first component counts loop iterations (one per popped node), the second
is the `matches` list in the order Python builds it. -/
def dfsRun (q : List Node) : Nat × List String :=
  match hq : q.getLast? with
  | none => (0, [])
  | some node =>
    let r := dfsRun (q.dropLast ++ node.children.map Prod.snd)
    (r.1 + 1, (if node.terminal then node.value.toList else []) ++ r.2)
termination_by queueSize q
decreasing_by
  have hne : q ≠ [] := by
    intro h
    subst h
    simp [List.getLast?] at hq
  have hq2 : q.dropLast ++ [q.getLast hne] = q := List.dropLast_append_getLast hne
  have hlast : q.getLast hne = node := by
    have := List.getLast?_eq_getLast q hne
    rw [this] at hq
    exact (Option.some.injEq _ _).mp hq
  calc queueSize (q.dropLast ++ node.children.map Prod.snd)
      = queueSize q.dropLast + sizeList node.children := by
        rw [queueSize_append, queueSize_map_snd]
    _ < queueSize q.dropLast + Node.size node := by
        cases node with
        | mk k b v ch => simp [Node.size, Node.children]
    _ = queueSize (q.dropLast ++ [node]) := by
        rw [queueSize_append]; simp [queueSize]
    _ = queueSize q := by rw [← hlast, hq2]

mutual

/-- Structural restatement of the subtree collection: the stored values
of all terminal nodes in the subtree, in preorder.  Used to reason about
`dfsRun`, which produces the same multiset. -/
def collect : Node → List String
  | .mk _ b v ch => (if b then v.toList else []) ++ collectList ch

/-- `collect` over a children list. -/
def collectList : List (Char × Node) → List String
  | [] => []
  | pr :: rest => collect pr.2 ++ collectList rest

end

/-- The `Trie` class: a wrapper around the root node. -/
structure Trie : Type where
  root : Node

/-- `Trie()`: a fresh trie has just a root node with no key, no value,
not terminal, and no children. -/
def Trie.empty : Trie := ⟨.mk none false none []⟩

/-- `Trie.insert(s)`. -/
def Trie.insert (t : Trie) (s : String) : Trie := ⟨insertAux s s.data t.root⟩

/-- `Trie.exists(s)`. -/
def Trie.exists (t : Trie) (s : String) : Bool := existsAux s.data t.root

/-- `Trie.delete(s)`: the returned boolean plus the trie after the call. -/
def Trie.delete (t : Trie) (s : String) : Bool × Trie :=
  let r := deleteAux s s.data t.root
  (r.1, ⟨r.2⟩)

/-- `Trie.search(s)`: empty result for the empty string; otherwise walk
the prefix, run the collection loop from the node reached (or return
empty if the path is missing), and sort the matches ascending. -/
def Trie.search (t : Trie) (s : String) : List String :=
  if s.data.length = 0 then []
  else
    match walk s.data t.root with
    | none => []
    | some n => List.insertionSort (· ≤ ·) (dfsRun [n]).2

/-- A public operation on the trie: `insert(s)` or `delete(s)`
(`exists` and `search` do not change the structure). -/
inductive Op : Type where
  | ins (s : String)
  | del (s : String)
deriving DecidableEq

/-- Apply one operation to a trie. -/
def applyOp (t : Trie) : Op → Trie
  | .ins s => t.insert s
  | .del s => (t.delete s).2

/-- The trie obtained by running a sequence of operations on a fresh trie. -/
def build (ops : List Op) : Trie := ops.foldl applyOp Trie.empty

/-- Well-formedness of a node sitting at path `p` (the characters read
on the way down from the root): a terminal node stores exactly the path
string, a non-terminal node stores nothing, the children keys are
distinct (a Python dict), and each child carries its dict key as its
`key` field and is in turn well-formed at the extended path. -/
inductive WF : List Char → Node → Prop where
  | mk {p : List Char} {k : Option Char} {b : Bool} {v : Option String}
       {ch : List (Char × Node)}
       (hterm : b = true → v = some (String.mk p))
       (hnoterm : b = false → v = none)
       (hkeys : (ch.map Prod.fst).Nodup)
       (hkey : ∀ pr ∈ ch, pr.2.key = some pr.1)
       (hwf : ∀ pr ∈ ch, WF (p ++ [pr.1]) pr.2) :
       WF p (.mk k b v ch)

/-! ### Association-list lemmas: `lookupChild` and `updateChild` -/

theorem lookupChild_eq_none_iff (l : List (Char × Node)) (c : Char) :
    lookupChild l c = none ↔ c ∉ l.map Prod.fst := by
  induction l with
  | nil => simp [lookupChild]
  | cons pr rest ih =>
    obtain ⟨k, v⟩ := pr
    by_cases h : k = c
    · subst h
      simp [lookupChild]
    · simp [lookupChild, h, ih, Ne.symm h]

theorem lookupChild_mem {l : List (Char × Node)} {c : Char} {v : Node}
    (h : lookupChild l c = some v) : (c, v) ∈ l := by
  induction l with
  | nil => simp [lookupChild] at h
  | cons pr rest ih =>
    obtain ⟨k, w⟩ := pr
    by_cases hk : k = c
    · subst hk
      simp [lookupChild] at h
      subst h
      exact List.mem_cons_self _ _
    · simp [lookupChild, hk] at h
      exact List.mem_cons_of_mem _ (ih h)

theorem lookupChild_of_mem {l : List (Char × Node)} {c : Char} {v : Node}
    (hmem : (c, v) ∈ l) (hnd : (l.map Prod.fst).Nodup) :
    lookupChild l c = some v := by
  induction l with
  | nil => simp at hmem
  | cons pr rest ih =>
    obtain ⟨k, w⟩ := pr
    have hnd' : k ∉ rest.map Prod.fst ∧ (rest.map Prod.fst).Nodup := by
      simpa using hnd
    rcases List.mem_cons.mp hmem with heq | htl
    · rw [Prod.mk.injEq] at heq
      simp [lookupChild, heq.1.symm, heq.2]
    · have hcmem : c ∈ rest.map Prod.fst := List.mem_map.mpr ⟨(c, v), htl, rfl⟩
      have hkc : k ≠ c := fun h => hnd'.1 (h ▸ hcmem)
      simp [lookupChild, hkc]
      exact ih htl hnd'.2

theorem lookupChild_updateChild_self {l : List (Char × Node)} {c : Char} {v : Node}
    (h : lookupChild l c = some v) (x : Node) :
    lookupChild (updateChild l c x) c = some x := by
  induction l with
  | nil => simp [lookupChild] at h
  | cons pr rest ih =>
    obtain ⟨k, w⟩ := pr
    by_cases hk : k = c
    · subst hk
      simp [lookupChild, updateChild]
    · simp [lookupChild, updateChild, hk] at h ⊢
      exact ih h

theorem lookupChild_updateChild_ne (l : List (Char × Node)) {c c' : Char} (x : Node)
    (h : c' ≠ c) : lookupChild (updateChild l c x) c' = lookupChild l c' := by
  induction l with
  | nil => simp [updateChild]
  | cons pr rest ih =>
    obtain ⟨k, w⟩ := pr
    by_cases hk : k = c
    · subst hk
      simp [updateChild, lookupChild, Ne.symm h]
    · by_cases hk' : k = c'
      · subst hk'
        simp [updateChild, hk, lookupChild]
      · simp [updateChild, hk, lookupChild, hk', ih]

theorem updateChild_same {l : List (Char × Node)} {c : Char} {v : Node}
    (h : lookupChild l c = some v) : updateChild l c v = l := by
  induction l with
  | nil => rfl
  | cons pr rest ih =>
    obtain ⟨k, w⟩ := pr
    by_cases hk : k = c
    · subst hk
      simp [lookupChild] at h
      simp [updateChild, h]
    · simp [lookupChild, hk] at h
      simp [updateChild, hk, ih h]

theorem updateChild_map_fst (l : List (Char × Node)) (c : Char) (x : Node) :
    (updateChild l c x).map Prod.fst = l.map Prod.fst := by
  induction l with
  | nil => rfl
  | cons pr rest ih =>
    obtain ⟨k, w⟩ := pr
    by_cases hk : k = c
    · subst hk
      simp [updateChild]
    · simp [updateChild, hk, ih]

theorem mem_updateChild {l : List (Char × Node)} {c : Char} {x : Node} {pr : Char × Node}
    (h : pr ∈ updateChild l c x) : pr = (c, x) ∨ pr ∈ l := by
  induction l with
  | nil => simp [updateChild] at h
  | cons hd rest ih =>
    obtain ⟨k, w⟩ := hd
    by_cases hk : k = c
    · subst hk
      simp [updateChild] at h
      rcases h with h | h
      · exact Or.inl h
      · exact Or.inr (List.mem_cons_of_mem _ h)
    · simp [updateChild, hk] at h
      rcases h with h | h
      · exact Or.inr (by simp [h])
      · rcases ih h with h' | h'
        · exact Or.inl h'
        · exact Or.inr (List.mem_cons_of_mem _ h')

theorem lookupChild_append_of_some {l l' : List (Char × Node)} {c : Char} {v : Node}
    (h : lookupChild l c = some v) : lookupChild (l ++ l') c = some v := by
  induction l with
  | nil => simp [lookupChild] at h
  | cons pr rest ih =>
    obtain ⟨k, w⟩ := pr
    by_cases hk : k = c
    · subst hk
      simp [lookupChild] at h ⊢
      exact h
    · simp [lookupChild, hk] at h ⊢
      exact ih h

theorem lookupChild_append_of_none {l : List (Char × Node)} {c : Char}
    (h : lookupChild l c = none) (l' : List (Char × Node)) :
    lookupChild (l ++ l') c = lookupChild l' c := by
  induction l with
  | nil => simp
  | cons pr rest ih =>
    obtain ⟨k, w⟩ := pr
    by_cases hk : k = c
    · subst hk
      simp [lookupChild] at h
    · simp [lookupChild, hk] at h ⊢
      exact ih h

theorem updateChild_append_of_none {l : List (Char × Node)} {c : Char}
    (h : lookupChild l c = none) (v x : Node) :
    updateChild (l ++ [(c, v)]) c x = l ++ [(c, x)] := by
  induction l with
  | nil => simp [updateChild]
  | cons pr rest ih =>
    obtain ⟨k, w⟩ := pr
    by_cases hk : k = c
    · subst hk
      simp [lookupChild] at h
    · simp [lookupChild, hk] at h
      simp [updateChild, hk, ih h]

theorem updateChild_updateChild (l : List (Char × Node)) (c : Char) (x y : Node) :
    updateChild (updateChild l c x) c y = updateChild l c y := by
  induction l with
  | nil => rfl
  | cons pr rest ih =>
    obtain ⟨k, w⟩ := pr
    by_cases hk : k = c
    · subst hk
      simp [updateChild]
    · simp [updateChild, hk, ih]

/-! ### Walk lemmas -/

theorem walk_append (a b : List Char) (n : Node) :
    walk (a ++ b) n = (walk a n).bind (walk b) := by
  induction a generalizing n with
  | nil => simp [walk]
  | cons c cs ih =>
    obtain ⟨k, bb, v, ch⟩ := n
    simp only [List.cons_append, walk]
    cases lookupChild ch c with
    | none => simp
    | some child => simp [ih]

theorem existsAux_eq_walk (cs : List Char) (n : Node) :
    existsAux cs n = ((walk cs n).map Node.terminal).getD false := by
  induction cs generalizing n with
  | nil =>
    obtain ⟨k, b, v, ch⟩ := n
    simp [existsAux, walk, Node.terminal]
  | cons c cs ih =>
    obtain ⟨k, b, v, ch⟩ := n
    simp only [existsAux, walk]
    cases lookupChild ch c with
    | none => simp
    | some child => simp [ih]

theorem existsAux_true_iff (cs : List Char) (n : Node) :
    existsAux cs n = true ↔ ∃ m, walk cs n = some m ∧ m.terminal = true := by
  rw [existsAux_eq_walk]
  cases hw : walk cs n with
  | none => simp
  | some m => simp

/-! ### Insert lemmas -/

theorem insertAux_key (s : String) (cs : List Char) (n : Node) :
    (insertAux s cs n).key = n.key := by
  obtain ⟨k, b, v, ch⟩ := n
  cases cs with
  | nil => rfl
  | cons c cs =>
    simp only [insertAux]
    cases lookupChild ch c with
    | none => rfl
    | some child => rfl

theorem existsAux_insertAux_self (s : String) (cs : List Char) (n : Node) :
    existsAux cs (insertAux s cs n) = true := by
  induction cs generalizing n with
  | nil =>
    obtain ⟨k, b, v, ch⟩ := n
    simp [insertAux, existsAux]
  | cons c cs ih =>
    obtain ⟨k, b, v, ch⟩ := n
    simp only [insertAux]
    cases hl : lookupChild ch c with
    | some child =>
      simp only [existsAux]
      rw [lookupChild_updateChild_self hl]
      exact ih child
    | none =>
      simp only [existsAux]
      rw [lookupChild_append_of_none hl]
      simp only [lookupChild, if_pos rfl]
      exact ih _

theorem existsAux_fresh (cs : List Char) (c : Char) :
    existsAux cs (.mk (some c) false none []) = true → False := by
  cases cs with
  | nil => simp [existsAux]
  | cons d ds => simp [existsAux, lookupChild]

theorem existsAux_insertAux_cases (s : String) (ds cs : List Char) (n : Node)
    (h : existsAux cs (insertAux s ds n) = true) :
    cs = ds ∨ existsAux cs n = true := by
  induction ds generalizing cs n with
  | nil =>
    cases cs with
    | nil => exact Or.inl rfl
    | cons c cs =>
      obtain ⟨k, b, v, ch⟩ := n
      simp only [insertAux, existsAux] at h
      right
      simp only [existsAux]
      exact h
  | cons d ds ih =>
    obtain ⟨k, b, v, ch⟩ := n
    cases cs with
    | nil =>
      right
      simp only [insertAux] at h
      cases hl : lookupChild ch d with
      | some child =>
        rw [hl] at h
        simpa [existsAux] using h
      | none =>
        rw [hl] at h
        simpa [existsAux] using h
    | cons c cs =>
      simp only [insertAux] at h
      cases hl : lookupChild ch d with
      | some child =>
        rw [hl] at h
        simp only [existsAux] at h ⊢
        by_cases hcd : c = d
        · subst hcd
          rw [lookupChild_updateChild_self hl] at h
          rcases ih cs child h with heq | hex
          · exact Or.inl (by rw [heq])
          · right
            rw [hl]
            exact hex
        · rw [lookupChild_updateChild_ne _ _ hcd] at h
          exact Or.inr h
      | none =>
        rw [hl] at h
        simp only [existsAux] at h ⊢
        by_cases hcd : c = d
        · subst hcd
          rw [lookupChild_append_of_none hl] at h
          simp only [lookupChild, if_pos rfl] at h
          rcases ih cs _ h with heq | hex
          · exact Or.inl (by rw [heq])
          · exact absurd hex (by intro hx; exact existsAux_fresh cs c hx)
        · cases hlc : lookupChild ch c with
          | some child =>
            rw [lookupChild_append_of_some hlc] at h
            right
            simp only [hlc]
            simpa using h
          | none =>
            rw [lookupChild_append_of_none hlc] at h
            simp only [lookupChild] at h
            rw [if_neg (fun hh => hcd hh.symm)] at h
            simp at h

theorem insertAux_idem (s : String) (cs : List Char) (n : Node) :
    insertAux s cs (insertAux s cs n) = insertAux s cs n := by
  induction cs generalizing n with
  | nil =>
    obtain ⟨k, b, v, ch⟩ := n
    simp [insertAux]
  | cons c cs ih =>
    obtain ⟨k, b, v, ch⟩ := n
    cases hl : lookupChild ch c with
    | some child =>
      simp only [insertAux, hl, lookupChild_updateChild_self hl, updateChild_updateChild, ih]
    | none =>
      simp only [insertAux, hl, lookupChild_append_of_none hl, lookupChild, if_pos,
        updateChild_append_of_none hl, ih]

theorem WF_insertAux {p : List Char} {n : Node} (hwf : WF p n)
    {s : String} {cs : List Char} (hs : s.data = p ++ cs) :
    WF p (insertAux s cs n) := by
  induction cs generalizing p n with
  | nil =>
    obtain ⟨k, b, v, ch⟩ := n
    cases hwf with
    | mk hterm hnoterm hkeys hkey hw =>
      simp only [insertAux]
      refine WF.mk ?_ ?_ hkeys hkey hw
      · intro
        have : s = String.mk p := by
          cases s with
          | mk d =>
            simp at hs
            simp [hs]
        rw [this]
      · intro h
        exact absurd h (by simp)
  | cons c cs ih =>
    obtain ⟨k, b, v, ch⟩ := n
    cases hwf with
    | mk hterm hnoterm hkeys hkey hw =>
      simp only [insertAux]
      cases hl : lookupChild ch c with
      | some child =>
        refine WF.mk hterm hnoterm ?_ ?_ ?_
        · rw [updateChild_map_fst]
          exact hkeys
        · intro pr hpr
          rcases mem_updateChild hpr with heq | hmem
          · subst heq
            rw [insertAux_key]
            exact hkey _ (lookupChild_mem hl)
          · exact hkey _ hmem
        · intro pr hpr
          rcases mem_updateChild hpr with heq | hmem
          · subst heq
            refine ih (hw _ (lookupChild_mem hl)) ?_
            simp [hs]
          · exact hw _ hmem
      | none =>
        have hcnot : c ∉ ch.map Prod.fst := (lookupChild_eq_none_iff ch c).mp hl
        refine WF.mk hterm hnoterm ?_ ?_ ?_
        · simp only [List.map_append, List.map_cons, List.map_nil]
          rw [List.nodup_append]
          exact ⟨hkeys, List.nodup_singleton c, by simpa using hcnot⟩
        · intro pr hpr
          rcases List.mem_append.mp hpr with hmem | hnew
          · exact hkey _ hmem
          · rw [List.mem_singleton] at hnew
            subst hnew
            rw [insertAux_key]
            rfl
        · intro pr hpr
          rcases List.mem_append.mp hpr with hmem | hnew
          · exact hw _ hmem
          · rw [List.mem_singleton] at hnew
            subst hnew
            refine ih ?_ ?_
            · exact WF.mk (by simp) (fun _ => rfl) List.nodup_nil (by simp) (by simp)
            · simp [hs]

/-! ### Delete lemmas -/

theorem deleteAux_key (s : String) (cs : List Char) (n : Node) :
    ((deleteAux s cs n).2).key = n.key := by
  obtain ⟨k, b, v, ch⟩ := n
  cases cs with
  | nil =>
    simp only [deleteAux]
    by_cases hc : b = true ∧ v = some s
    · rw [if_pos hc]
      rfl
    · rw [if_neg hc]
  | cons c cs =>
    simp only [deleteAux]
    cases lookupChild ch c with
    | none => rfl
    | some child => rfl

theorem deleteAux_false_eq {s : String} {cs : List Char} {n : Node}
    (h : (deleteAux s cs n).1 = false) : (deleteAux s cs n).2 = n := by
  induction cs generalizing n with
  | nil =>
    obtain ⟨k, b, v, ch⟩ := n
    simp only [deleteAux] at h ⊢
    by_cases hc : b = true ∧ v = some s
    · rw [if_pos hc] at h
      simp at h
    · rw [if_neg hc]
  | cons c cs ih =>
    obtain ⟨k, b, v, ch⟩ := n
    simp only [deleteAux] at h ⊢
    cases hl : lookupChild ch c with
    | none => rfl
    | some child =>
      rw [hl] at h
      simp only at h ⊢
      rw [ih h, updateChild_same hl]

theorem deleteAux_true_iff (s : String) (cs : List Char) (n : Node) :
    (deleteAux s cs n).1 = true ↔
      ∃ m, walk cs n = some m ∧ m.terminal = true ∧ m.value = some s := by
  induction cs generalizing n with
  | nil =>
    obtain ⟨k, b, v, ch⟩ := n
    simp only [deleteAux, walk]
    by_cases hc : b = true ∧ v = some s
    · rw [if_pos hc]
      simp [Node.terminal, Node.value, hc.1, hc.2]
    · rw [if_neg hc]
      simp only [Option.some.injEq]
      constructor
      · intro h
        simp at h
      · rintro ⟨m, hm, h1, h2⟩
        exact absurd ⟨by rw [← hm] at h1; exact h1, by rw [← hm] at h2; exact h2⟩ hc
  | cons c cs ih =>
    obtain ⟨k, b, v, ch⟩ := n
    simp only [deleteAux, walk]
    cases hl : lookupChild ch c with
    | none => simp
    | some child => simpa using ih child

theorem deleteAux_walk_self {s : String} {cs : List Char} {n : Node}
    (h : (deleteAux s cs n).1 = true) :
    ∃ m, walk cs ((deleteAux s cs n).2) = some m ∧ m.terminal = false ∧ m.value = none := by
  induction cs generalizing n with
  | nil =>
    obtain ⟨k, b, v, ch⟩ := n
    simp only [deleteAux] at h ⊢
    by_cases hc : b = true ∧ v = some s
    · rw [if_pos hc]
      exact ⟨_, rfl, rfl, rfl⟩
    · rw [if_neg hc] at h
      simp at h
  | cons c cs ih =>
    obtain ⟨k, b, v, ch⟩ := n
    simp only [deleteAux] at h ⊢
    cases hl : lookupChild ch c with
    | none =>
      rw [hl] at h
      simp at h
    | some child =>
      rw [hl] at h
      simp only at h ⊢
      obtain ⟨m, hm, h1, h2⟩ := ih h
      refine ⟨m, ?_, h1, h2⟩
      simp only [walk, lookupChild_updateChild_self hl]
      exact hm

theorem existsAux_deleteAux_ne {s : String} (ds : List Char) {n : Node} (cs : List Char)
    (hne : cs ≠ ds) : existsAux cs ((deleteAux s ds n).2) = existsAux cs n := by
  induction ds generalizing cs n with
  | nil =>
    obtain ⟨k, b, v, ch⟩ := n
    simp only [deleteAux]
    by_cases hc : b = true ∧ v = some s
    · rw [if_pos hc]
      cases cs with
      | nil => exact absurd rfl hne
      | cons c cs => simp [existsAux]
    · rw [if_neg hc]
  | cons d ds ih =>
    obtain ⟨k, b, v, ch⟩ := n
    simp only [deleteAux]
    cases hl : lookupChild ch d with
    | none => rfl
    | some child =>
      simp only
      cases cs with
      | nil => simp [existsAux]
      | cons c cs =>
        by_cases hcd : c = d
        · subst hcd
          have hne' : cs ≠ ds := fun h => hne (by rw [h])
          simp only [existsAux, lookupChild_updateChild_self hl, hl]
          exact ih cs hne'
        · simp only [existsAux, lookupChild_updateChild_ne _ _ hcd]

theorem walk_deleteAux_isSome (s : String) (ds : List Char) (n : Node) (cs : List Char) :
    (walk cs ((deleteAux s ds n).2)).isSome = (walk cs n).isSome := by
  induction ds generalizing cs n with
  | nil =>
    obtain ⟨k, b, v, ch⟩ := n
    simp only [deleteAux]
    by_cases hc : b = true ∧ v = some s
    · rw [if_pos hc]
      cases cs with
      | nil => simp [walk]
      | cons c cs => simp [walk]
    · rw [if_neg hc]
  | cons d ds ih =>
    obtain ⟨k, b, v, ch⟩ := n
    simp only [deleteAux]
    cases hl : lookupChild ch d with
    | none => rfl
    | some child =>
      simp only
      cases cs with
      | nil => simp [walk]
      | cons c cs =>
        by_cases hcd : c = d
        · subst hcd
          simp only [walk, lookupChild_updateChild_self hl, hl]
          exact ih child cs
        · simp only [walk, lookupChild_updateChild_ne _ _ hcd]

theorem existsAux_deleteAux_mono {s : String} {ds : List Char} {n : Node} {cs : List Char}
    (h : existsAux cs ((deleteAux s ds n).2) = true) : existsAux cs n = true := by
  by_cases hne : cs = ds
  · subst hne
    cases hdel : (deleteAux s cs n).1 with
    | false => rwa [deleteAux_false_eq hdel] at h
    | true =>
      obtain ⟨m, hm, h1, _⟩ := deleteAux_walk_self hdel
      rw [existsAux_eq_walk, hm] at h
      simp [h1] at h
  · rwa [existsAux_deleteAux_ne ds cs hne] at h

theorem WF_deleteAux {p : List Char} {n : Node} (hwf : WF p n) (s : String) (ds : List Char) :
    WF p ((deleteAux s ds n).2) := by
  induction ds generalizing p n with
  | nil =>
    obtain ⟨k, b, v, ch⟩ := n
    cases hwf with
    | mk hterm hnoterm hkeys hkey hw =>
      simp only [deleteAux]
      by_cases hc : b = true ∧ v = some s
      · rw [if_pos hc]
        exact WF.mk (by simp) (fun _ => rfl) hkeys hkey hw
      · rw [if_neg hc]
        exact WF.mk hterm hnoterm hkeys hkey hw
  | cons d ds ih =>
    obtain ⟨k, b, v, ch⟩ := n
    cases hwf with
    | mk hterm hnoterm hkeys hkey hw =>
      simp only [deleteAux]
      cases hl : lookupChild ch d with
      | none => exact WF.mk hterm hnoterm hkeys hkey hw
      | some child =>
        simp only
        refine WF.mk hterm hnoterm ?_ ?_ ?_
        · rw [updateChild_map_fst]
          exact hkeys
        · intro pr hpr
          rcases mem_updateChild hpr with heq | hmem
          · subst heq
            rw [deleteAux_key]
            exact hkey _ (lookupChild_mem hl)
          · exact hkey _ hmem
        · intro pr hpr
          rcases mem_updateChild hpr with heq | hmem
          · subst heq
            exact ih (hw _ (lookupChild_mem hl))
          · exact hw _ hmem

/-! ### Well-formedness of every reachable trie -/

theorem WF_empty_root : WF [] Trie.empty.root :=
  WF.mk (by simp) (fun _ => rfl) List.nodup_nil (by simp) (by simp)

theorem WF_foldl {t : Trie} (ops : List Op) (h : WF [] t.root) :
    WF [] ((ops.foldl applyOp t).root) := by
  induction ops generalizing t with
  | nil => exact h
  | cons op rest ih =>
    simp only [List.foldl_cons]
    apply ih
    cases op with
    | ins s => exact WF_insertAux h (by simp)
    | del s => exact WF_deleteAux h s s.data

theorem WF_build (ops : List Op) : WF [] (build ops).root :=
  WF_foldl ops WF_empty_root

/-! ### The collection loop: iteration count and collected values -/

theorem Node.size_eq (n : Node) : Node.size n = 1 + sizeList n.children := by
  obtain ⟨k, b, v, ch⟩ := n
  rfl

theorem eq_dropLast_append {q : List Node} {node : Node} (hq : q.getLast? = some node) :
    q = q.dropLast ++ [node] := by
  have hne : q ≠ [] := by
    intro h
    subst h
    simp at hq
  have h1 := List.dropLast_append_getLast hne
  have h2 : q.getLast hne = node := by
    rw [List.getLast?_eq_getLast q hne] at hq
    exact Option.some.inj hq
  rw [← h2]
  exact h1.symm

theorem dfsRun_count (q : List Node) : (dfsRun q).1 = queueSize q := by
  induction q using dfsRun.induct with
  | case1 q hq =>
    have hnil : q = [] := by
      cases q with
      | nil => rfl
      | cons a as => simp [List.getLast?_eq_getLast] at hq
    subst hnil
    rw [dfsRun]
    simp [queueSize]
  | case2 q node hq ih =>
    rw [dfsRun, hq]
    simp only
    rw [ih, queueSize_append, queueSize_map_snd]
    have h2 : queueSize q = queueSize q.dropLast + Node.size node := by
      conv_lhs => rw [eq_dropLast_append hq]
      rw [queueSize_append]
      simp [queueSize]
    rw [h2, Node.size_eq]
    omega

theorem collectList_eq_flatten (ch : List (Char × Node)) :
    collectList ch = ((ch.map Prod.snd).map collect).flatten := by
  induction ch with
  | nil => simp [collectList]
  | cons pr rest ih => simp [collectList, ih]

theorem collect_eq (n : Node) :
    collect n = (if n.terminal then n.value.toList else [])
      ++ ((n.children.map Prod.snd).map collect).flatten := by
  obtain ⟨k, b, v, ch⟩ := n
  simp [collect, collectList_eq_flatten, Node.terminal, Node.value, Node.children]

theorem dfsRun_perm (q : List Node) :
    (dfsRun q).2.Perm ((q.map collect).flatten) := by
  induction q using dfsRun.induct with
  | case1 q hq =>
    have hnil : q = [] := by
      cases q with
      | nil => rfl
      | cons a as => simp [List.getLast?_eq_getLast] at hq
    subst hnil
    rw [dfsRun]
    simp
  | case2 q node hq ih =>
    rw [dfsRun, hq]
    have hsplit : q = q.dropLast ++ [node] := eq_dropLast_append hq
    show List.Perm ((if node.terminal then node.value.toList else [])
        ++ (dfsRun (q.dropLast ++ node.children.map Prod.snd)).2)
      ((q.map collect).flatten)
    refine (List.Perm.append_left (if node.terminal then node.value.toList else []) ih).trans ?_
    have h2 : ((q.dropLast ++ node.children.map Prod.snd).map collect).flatten
        = (q.dropLast.map collect).flatten
          ++ ((node.children.map Prod.snd).map collect).flatten := by
      simp
    rw [h2]
    refine (List.perm_append_comm_assoc _ _ _).trans ?_
    rw [← collect_eq]
    have h4 : (q.map collect).flatten = (q.dropLast.map collect).flatten ++ collect node := by
      conv_lhs => rw [hsplit]
      simp
    rw [h4]

/-! ### Characterising the collected values of a well-formed subtree -/

theorem mem_sizeList {ch : List (Char × Node)} {pr : Char × Node} (h : pr ∈ ch) :
    Node.size pr.2 ≤ sizeList ch := by
  induction ch with
  | nil => simp at h
  | cons hd rest ih =>
    rcases List.mem_cons.mp h with heq | htl
    · subst heq
      simp [sizeList]
    · have := ih htl
      simp [sizeList]
      omega

theorem mem_collectList {ch : List (Char × Node)} {w : String} :
    w ∈ collectList ch ↔ ∃ pr ∈ ch, w ∈ collect pr.2 := by
  induction ch with
  | nil => simp [collectList]
  | cons hd rest ih =>
    simp only [collectList, List.mem_append, ih]
    constructor
    · rintro (h | ⟨pr, hpr, hw⟩)
      · exact ⟨hd, List.mem_cons_self _ _, h⟩
      · exact ⟨pr, List.mem_cons_of_mem _ hpr, hw⟩
    · rintro ⟨pr, hpr, hw⟩
      rcases List.mem_cons.mp hpr with heq | htl
      · subst heq
        exact Or.inl hw
      · exact Or.inr ⟨pr, htl, hw⟩

theorem walk_WF {p : List Char} {n : Node} (hwf : WF p n) :
    ∀ {q : List Char} {m : Node}, walk q n = some m → WF (p ++ q) m := by
  intro q
  induction q generalizing p n with
  | nil =>
    intro m hm
    simp only [walk, Option.some.injEq] at hm
    subst hm
    simpa using hwf
  | cons c q ih =>
    intro m hm
    obtain ⟨k, b, v, ch⟩ := n
    simp only [walk] at hm
    cases hl : lookupChild ch c with
    | none =>
      rw [hl] at hm
      simp at hm
    | some child =>
      rw [hl] at hm
      simp only at hm
      cases hwf with
      | mk hterm hnoterm hkeys hkey hw =>
        have hwfc : WF (p ++ [c]) child := hw _ (lookupChild_mem hl)
        have := ih hwfc hm
        simpa using this

theorem collect_mem_iff (n : Node) (p : List Char) (hwf : WF p n) (w : String) :
    w ∈ collect n ↔
      ∃ q m, walk q n = some m ∧ m.terminal = true ∧ w = String.mk (p ++ q) := by
  cases hwf with
  | @mk _ k b v ch hterm hnoterm hkeys hkey hw =>
    constructor
    · intro hmem
      simp only [collect, List.mem_append] at hmem
      rcases hmem with hleft | hright
      · have hb : b = true := by
          by_contra hb
          simp [Bool.not_eq_true] at hb
          simp [hb] at hleft
        have hv : v = some (String.mk p) := hterm hb
        rw [hb, hv] at hleft
        simp [Option.toList] at hleft
        refine ⟨[], Node.mk k b v ch, rfl, ?_, ?_⟩
        · simpa [Node.terminal] using hb
        · simpa [hleft]
      · obtain ⟨pr, hpr, hwmem⟩ := mem_collectList.mp hright
        obtain ⟨c, child⟩ := pr
        have hiff := collect_mem_iff child (p ++ [c]) (hw _ hpr) w
        obtain ⟨q', m, hwalk, hterm', hweq⟩ := hiff.mp hwmem
        refine ⟨c :: q', m, ?_, hterm', ?_⟩
        · simp only [walk, lookupChild_of_mem hpr hkeys]
          exact hwalk
        · rw [hweq]
          simp
    · rintro ⟨q, m, hwalk, hterm', hweq⟩
      cases q with
      | nil =>
        simp only [walk, Option.some.injEq] at hwalk
        subst hwalk
        simp only [Node.terminal] at hterm'
        have hv : v = some (String.mk p) := hterm hterm'
        simp only [collect, List.mem_append]
        left
        rw [hterm', hv]
        simp [Option.toList, hweq]
      | cons c q' =>
        simp only [walk] at hwalk
        cases hl : lookupChild ch c with
        | none =>
          rw [hl] at hwalk
          simp at hwalk
        | some child =>
          rw [hl] at hwalk
          simp only at hwalk
          have hpr : (c, child) ∈ ch := lookupChild_mem hl
          have hiff := collect_mem_iff child (p ++ [c]) (hw _ hpr) w
          have hwmem : w ∈ collect child := by
            refine hiff.mpr ⟨q', m, hwalk, hterm', ?_⟩
            rw [hweq]
            simp
          simp only [collect, List.mem_append]
          right
          exact mem_collectList.mpr ⟨(c, child), hpr, hwmem⟩
termination_by Node.size n
decreasing_by
  all_goals
    have h1 : Node.size child ≤ sizeList ch := by simpa using mem_sizeList hpr
    have h2 : Node.size (Node.mk k b v ch) = 1 + sizeList ch := rfl
    omega

theorem collect_shape {p : List Char} {n : Node} (hwf : WF p n) {w : String}
    (h : w ∈ collect n) : ∃ q, w.data = p ++ q := by
  obtain ⟨q, m, _, _, hweq⟩ := (collect_mem_iff n p hwf w).mp h
  exact ⟨q, by rw [hweq]⟩

theorem collectList_nodup (ch : List (Char × Node)) (p : List Char)
    (hkeys : (ch.map Prod.fst).Nodup)
    (hwfs : ∀ pr ∈ ch, WF (p ++ [pr.1]) pr.2)
    (hnds : ∀ pr ∈ ch, (collect pr.2).Nodup) :
    (collectList ch).Nodup := by
  induction ch with
  | nil => simp [collectList]
  | cons hd rest ih =>
    obtain ⟨c, child⟩ := hd
    have hkeys' : c ∉ rest.map Prod.fst ∧ (rest.map Prod.fst).Nodup := by
      simpa using hkeys
    simp only [collectList]
    rw [List.nodup_append]
    refine ⟨hnds _ (List.mem_cons_self _ _),
      ih hkeys'.2 (fun pr hpr => hwfs pr (List.mem_cons_of_mem _ hpr))
        (fun pr hpr => hnds pr (List.mem_cons_of_mem _ hpr)), ?_⟩
    intro w hw1 hw2
    obtain ⟨q1, hq1⟩ := collect_shape (hwfs _ (List.mem_cons_self _ _)) hw1
    obtain ⟨pr, hpr, hwc⟩ := mem_collectList.mp hw2
    obtain ⟨q2, hq2⟩ := collect_shape (hwfs pr (List.mem_cons_of_mem _ hpr)) hwc
    have hne : pr.1 ≠ c := by
      intro heq
      exact hkeys'.1 (List.mem_map.mpr ⟨pr, hpr, heq⟩)
    rw [hq1] at hq2
    rw [List.append_assoc, List.append_assoc] at hq2
    have := List.append_cancel_left hq2
    simp only [List.singleton_append, List.cons.injEq] at this
    exact hne this.1.symm

theorem collect_nodup (n : Node) (p : List Char) (hwf : WF p n) : (collect n).Nodup := by
  cases hwf with
  | @mk _ k b v ch hterm hnoterm hkeys hkey hw =>
    simp only [collect]
    rw [List.nodup_append]
    refine ⟨?_, ?_, ?_⟩
    · by_cases hb : b = true
      · rw [hb, hterm hb]
        simp
      · have hb' : b = false := by simpa using hb
        rw [hb']
        simp
    · exact collectList_nodup ch p hkeys hw
        (fun pr hpr => collect_nodup pr.2 (p ++ [pr.1]) (hw pr hpr))
    · intro w hw1 hw2
      by_cases hb : b = true
      · rw [hb, hterm hb] at hw1
        simp [Option.toList] at hw1
        obtain ⟨pr, hpr, hwc⟩ := mem_collectList.mp hw2
        obtain ⟨q1, hq1⟩ := collect_shape (hw pr hpr) hwc
        rw [hw1] at hq1
        simp at hq1
      · have hb' : b = false := by simpa using hb
        rw [hb'] at hw1
        simp at hw1
termination_by Node.size n
decreasing_by
  have h1 : Node.size pr.2 ≤ sizeList ch := mem_sizeList hpr
  have h2 : Node.size (Node.mk k b v ch) = 1 + sizeList ch := rfl
  omega

/-! ### Search-level lemmas -/

theorem data_ne_nil_of_ne_empty {s : String} (hs : s ≠ "") : ¬ s.data.length = 0 := by
  intro h0
  apply hs
  cases s with
  | mk d =>
    cases d with
    | nil => rfl
    | cons a as => simp at h0

theorem search_eq_sorted_collect {t : Trie} {s : String} {n : Node}
    (hlen : ¬ s.data.length = 0) (h : walk s.data t.root = some n) :
    t.search s = List.insertionSort (· ≤ ·) (collect n) := by
  simp only [Trie.search, if_neg hlen, h]
  apply List.eq_of_perm_of_sorted (r := fun a b : String => a ≤ b)
  · have h1 := List.perm_insertionSort (α := String) (· ≤ ·) (dfsRun [n]).2
    have h2 : (dfsRun [n]).2.Perm (collect n) := by
      have := dfsRun_perm [n]
      simpa using this
    have h3 := List.perm_insertionSort (α := String) (· ≤ ·) (collect n)
    exact h1.trans (h2.trans h3.symm)
  · exact List.sorted_insertionSort _ _
  · exact List.sorted_insertionSort _ _

theorem search_eq_nil_of_walk_none {t : Trie} {s : String}
    (h : walk s.data t.root = none) : t.search s = [] := by
  by_cases hlen : s.data.length = 0
  · simp [Trie.search, hlen]
  · simp [Trie.search, hlen, h]

theorem exists_true_iff (t : Trie) (w : String) :
    Trie.exists t w = true ↔ ∃ m, walk w.data t.root = some m ∧ m.terminal = true :=
  existsAux_true_iff w.data t.root

theorem mem_search_iff {t : Trie} (hwf : WF [] t.root) {s : String} (hs : s ≠ "")
    (w : String) :
    w ∈ t.search s ↔ Trie.exists t w = true ∧ List.IsPrefix s.data w.data := by
  have hlen := data_ne_nil_of_ne_empty hs
  cases hw : walk s.data t.root with
  | none =>
    rw [search_eq_nil_of_walk_none hw]
    simp only [List.not_mem_nil, false_iff]
    rintro ⟨hex, ⟨r, hr⟩⟩
    obtain ⟨m, hm, _⟩ := (exists_true_iff t w).mp hex
    rw [← hr, walk_append, hw] at hm
    simp at hm
  | some n =>
    have hwfn : WF s.data n := by
      have := walk_WF hwf hw
      simpa using this
    rw [search_eq_sorted_collect hlen hw]
    rw [(List.perm_insertionSort (α := String) (· ≤ ·) (collect n)).mem_iff]
    rw [collect_mem_iff n s.data hwfn w]
    constructor
    · rintro ⟨q, m, hwalk, hterm, hweq⟩
      have hdata : w.data = s.data ++ q := by rw [hweq]
      constructor
      · refine (exists_true_iff t w).mpr ⟨m, ?_, hterm⟩
        rw [hdata, walk_append, hw]
        exact hwalk
      · exact ⟨q, hdata.symm⟩
    · rintro ⟨hex, ⟨r, hr⟩⟩
      obtain ⟨m, hm, hterm⟩ := (exists_true_iff t w).mp hex
      rw [← hr, walk_append, hw] at hm
      have hm' : walk r n = some m := hm
      refine ⟨r, m, hm', hterm, ?_⟩
      cases w with
      | mk d =>
        exact congrArg String.mk hr.symm

theorem search_sorted_lt {t : Trie} (hwf : WF [] t.root) (s : String) :
    (t.search s).Sorted (· < ·) := by
  by_cases hlen : s.data.length = 0
  · simp [Trie.search, hlen]
  · cases hw : walk s.data t.root with
    | none =>
      rw [search_eq_nil_of_walk_none hw]
      simp
    | some n =>
      rw [search_eq_sorted_collect hlen hw]
      have hwfn : WF s.data n := by
        have := walk_WF hwf hw
        simpa using this
      have hnd : (collect n).Nodup := collect_nodup n s.data hwfn
      have hnd2 : (List.insertionSort (· ≤ ·) (collect n)).Nodup :=
        (List.perm_insertionSort (α := String) (· ≤ ·) (collect n)).nodup_iff.mpr hnd
      exact List.Sorted.lt_of_le (List.sorted_insertionSort _ _) hnd2

/-! ### Helpers at the level of operation sequences -/

theorem string_eq_of_data_eq {a b : String} (h : a.data = b.data) : a = b := by
  cases a with
  | mk d =>
    cases b with
    | mk e => exact congrArg String.mk h

theorem exists_empty_trie (s : String) : Trie.exists Trie.empty s = false := by
  cases hs : s.data with
  | nil =>
    simp only [Trie.exists, Trie.empty, hs]
    rfl
  | cons c cs =>
    simp only [Trie.exists, Trie.empty, hs]
    rfl

theorem exists_foldl_cases {s : String} (ops : List Op) :
    ∀ t : Trie, Trie.exists (ops.foldl applyOp t) s = true →
      Op.ins s ∈ ops ∨ Trie.exists t s = true := by
  induction ops with
  | nil =>
    intro t h
    exact Or.inr h
  | cons op rest ih =>
    intro t h
    simp only [List.foldl_cons] at h
    rcases ih _ h with hmem | hbase
    · exact Or.inl (List.mem_cons_of_mem _ hmem)
    · cases op with
      | ins s' =>
        rcases existsAux_insertAux_cases s' s'.data s.data t.root hbase with heq | hex
        · left
          have : s = s' := string_eq_of_data_eq heq
          rw [this]
          exact List.mem_cons_self _ _
        · exact Or.inr hex
      | del s' =>
        exact Or.inr (existsAux_deleteAux_mono hbase)

theorem exists_build_mem {ops : List Op} {s : String}
    (h : Trie.exists (build ops) s = true) : Op.ins s ∈ ops := by
  rcases exists_foldl_cases ops Trie.empty h with hmem | hbase
  · exact hmem
  · rw [exists_empty_trie s] at hbase
    simp at hbase

theorem build_snoc_ins (ops : List Op) (s : String) :
    build (ops ++ [Op.ins s]) = (build ops).insert s := by
  simp [build, List.foldl_append, applyOp]

theorem search_nodup {t : Trie} (hwf : WF [] t.root) (s : String) :
    (t.search s).Nodup :=
  (search_sorted_lt hwf s).nodup

/-! ### The specified properties -/

/-- C1: for every non-empty string `s` and every trie built by a finite
sequence of insert and delete calls, `search(s)` returns exactly the set of
currently stored words that have `s` as a prefix (including `s` itself when
stored), each appearing exactly once, sorted strictly ascending, hence with
no duplicates even after repeated inserts of the same string. -/
theorem search_returns_stored_prefix_matches (ops : List Op) (s : String)
    (hs : s ≠ "") :
    ((build ops).search s).Sorted (· < ·) ∧
    ∀ w : String, w ∈ (build ops).search s ↔
      Trie.exists (build ops) w = true ∧ List.IsPrefix s.data w.data :=
  ⟨search_sorted_lt (WF_build ops) s, fun w => mem_search_iff (WF_build ops) hs w⟩

theorem search_returns_stored_prefix_matches_witness :
    ("an" : String) ≠ "" ∧
    (((build [Op.ins "an", Op.ins "anna"]).search "an").Sorted (· < ·) ∧
      ∀ w : String, w ∈ (build [Op.ins "an", Op.ins "anna"]).search "an" ↔
        Trie.exists (build [Op.ins "an", Op.ins "anna"]) w = true ∧
          List.IsPrefix ("an" : String).data w.data) :=
  ⟨by decide,
    search_returns_stored_prefix_matches [Op.ins "an", Op.ins "anna"] "an" (by decide)⟩

/-- C3: immediately after `insert(s)`, `exists(s)` returns true, for every
string and every starting trie. -/
theorem exists_true_after_insert (t : Trie) (s : String) :
    Trie.exists (t.insert s) s = true :=
  existsAux_insertAux_self s s.data t.root

theorem exists_true_after_insert_witness :
    Trie.exists (Trie.empty.insert "anna") "anna" = true :=
  exists_true_after_insert Trie.empty "anna"

/-- C4: if `insert(s)` was never called in the operation sequence, then
`exists(s)` returns false on the resulting trie; in particular a node
reached only as an intermediate prefix of a longer word does not count. -/
theorem exists_false_of_never_inserted (ops : List Op) (s : String)
    (h : Op.ins s ∉ ops) : Trie.exists (build ops) s = false := by
  cases hex : Trie.exists (build ops) s with
  | false => rfl
  | true => exact absurd (exists_build_mem hex) h

theorem exists_false_of_never_inserted_witness :
    Op.ins "an" ∉ [Op.ins "anna"] ∧ Trie.exists (build [Op.ins "anna"]) "an" = false :=
  ⟨by decide, exists_false_of_never_inserted [Op.ins "anna"] "an" (by decide)⟩

/-- C8: `search("")` returns the empty sequence on every trie, whatever it
contains. -/
theorem search_empty_string_is_empty (t : Trie) : t.search "" = [] := rfl

theorem search_empty_string_is_empty_witness :
    (build [Op.ins "an"]).search "" = [] :=
  search_empty_string_is_empty (build [Op.ins "an"])

/-- C2: `delete(s)` returns true, clearing the final node, exactly when the
full path for `s` exists and ends in a terminal node whose value equals `s`;
otherwise it returns false and leaves the trie unchanged, so deleting the
same stored word twice returns true then false. -/
theorem delete_exact_terminal_match (t : Trie) (s : String) :
    ((t.delete s).1 = true ↔
      ∃ n, walk s.data t.root = some n ∧ n.terminal = true ∧ n.value = some s) ∧
    ((t.delete s).1 = false → (t.delete s).2 = t) ∧
    ((t.delete s).1 = true →
      (∃ n, walk s.data (t.delete s).2.root = some n ∧
        n.terminal = false ∧ n.value = none) ∧
      ((t.delete s).2.delete s).1 = false) := by
  refine ⟨deleteAux_true_iff s s.data t.root, ?_, ?_⟩
  · intro h
    have h2 := @deleteAux_false_eq s s.data t.root h
    cases t with
    | mk root => exact congrArg Trie.mk h2
  · intro h
    refine ⟨deleteAux_walk_self h, ?_⟩
    cases hb : ((t.delete s).2.delete s).1 with
    | false => rfl
    | true =>
      obtain ⟨m, hm, hterm, hv⟩ := (deleteAux_true_iff s s.data (t.delete s).2.root).mp hb
      obtain ⟨m0, hm0, hterm0, hv0⟩ := deleteAux_walk_self h
      have hm0' : walk s.data (t.delete s).2.root = some m0 := hm0
      rw [hm0'] at hm
      obtain rfl := Option.some.inj hm
      rw [hterm0] at hterm
      exact absurd hterm (by simp)

theorem delete_exact_terminal_match_witness :
    (((build [Op.ins "an"]).delete "an").1 = true ↔
      ∃ n, walk ("an" : String).data (build [Op.ins "an"]).root = some n ∧
        n.terminal = true ∧ n.value = some "an") ∧
    (((build [Op.ins "an"]).delete "an").1 = false →
      ((build [Op.ins "an"]).delete "an").2 = build [Op.ins "an"]) ∧
    (((build [Op.ins "an"]).delete "an").1 = true →
      (∃ n, walk ("an" : String).data ((build [Op.ins "an"]).delete "an").2.root = some n ∧
        n.terminal = false ∧ n.value = none) ∧
      (((build [Op.ins "an"]).delete "an").2.delete "an").1 = false) :=
  delete_exact_terminal_match (build [Op.ins "an"]) "an"

/-- C5: a successful `delete(s)` makes `exists(s)` false, removes no node
(every walkable path stays walkable), and leaves every other stored word
stored — in particular words extending `s`. -/
theorem delete_preserves_other_words (t : Trie) (s : String)
    (h : (t.delete s).1 = true) :
    Trie.exists (t.delete s).2 s = false ∧
    (∀ cs : List Char, (walk cs (t.delete s).2.root).isSome = (walk cs t.root).isSome) ∧
    ∀ w : String, w ≠ s → Trie.exists t w = true → Trie.exists (t.delete s).2 w = true := by
  refine ⟨?_, ?_, ?_⟩
  · obtain ⟨m, hm, hterm, _⟩ := deleteAux_walk_self h
    show existsAux s.data (deleteAux s s.data t.root).2 = false
    rw [existsAux_eq_walk, hm]
    simp [hterm]
  · intro cs
    exact walk_deleteAux_isSome s s.data t.root cs
  · intro w hw hex
    have hdata : w.data ≠ s.data := fun hd => hw (string_eq_of_data_eq hd)
    show existsAux w.data (deleteAux s s.data t.root).2 = true
    rw [existsAux_deleteAux_ne s.data w.data hdata]
    exact hex

theorem delete_preserves_other_words_witness :
    ((build [Op.ins "an", Op.ins "anna"]).delete "an").1 = true ∧
    (Trie.exists ((build [Op.ins "an", Op.ins "anna"]).delete "an").2 "an" = false ∧
      (∀ cs : List Char,
        (walk cs ((build [Op.ins "an", Op.ins "anna"]).delete "an").2.root).isSome
          = (walk cs (build [Op.ins "an", Op.ins "anna"]).root).isSome) ∧
      ∀ w : String, w ≠ "an" →
        Trie.exists (build [Op.ins "an", Op.ins "anna"]) w = true →
        Trie.exists ((build [Op.ins "an", Op.ins "anna"]).delete "an").2 w = true) :=
  ⟨rfl, delete_preserves_other_words (build [Op.ins "an", Op.ins "anna"]) "an" rfl⟩

/-- C6: `insert` is idempotent — inserting the same string twice yields a
trie identical to inserting it once, `exists(s)` is true, and `search` on
any query gives the same duplicate-free results. -/
theorem insert_idempotent (ops : List Op) (s : String) :
    ((build ops).insert s).insert s = (build ops).insert s ∧
    Trie.exists ((build ops).insert s) s = true ∧
    ∀ q : String,
      Trie.search (((build ops).insert s).insert s) q
        = Trie.search ((build ops).insert s) q ∧
      (Trie.search ((build ops).insert s) q).Nodup := by
  have heq : ((build ops).insert s).insert s = (build ops).insert s := by
    show (⟨insertAux s s.data (insertAux s s.data (build ops).root)⟩ : Trie)
      = ⟨insertAux s s.data (build ops).root⟩
    rw [insertAux_idem]
  have hwf : WF [] ((build ops).insert s).root :=
    WF_insertAux (WF_build ops) (by simp)
  refine ⟨heq, existsAux_insertAux_self s s.data (build ops).root, ?_⟩
  intro q
  exact ⟨by rw [heq], search_nodup hwf q⟩

theorem insert_idempotent_witness :
    ((build []).insert "an").insert "an" = (build []).insert "an" ∧
    Trie.exists ((build []).insert "an") "an" = true ∧
    ∀ q : String,
      Trie.search (((build []).insert "an").insert "an") q
        = Trie.search ((build []).insert "an") q ∧
      (Trie.search ((build []).insert "an") q).Nodup :=
  insert_idempotent [] "an"

/-- C7: in every reachable trie the root is well-formed: a terminal node at
depth `cs` stores exactly the string spelled by its path (so the stored
value has the same length as the depth), keys along each edge match the
child key fields, and a non-terminal node stores nothing (no stale value
after `delete`). -/
theorem terminal_value_invariant (ops : List Op) :
    WF [] (build ops).root ∧
    ∀ (cs : List Char) (n : Node), walk cs (build ops).root = some n →
      (n.terminal = true ↔ n.value = some (String.mk cs)) ∧
      (n.terminal = false → n.value = none) ∧
      ∀ w : String, n.value = some w → w.length = cs.length := by
  refine ⟨WF_build ops, ?_⟩
  intro cs n hwalk
  have hwfn : WF cs n := by
    have := walk_WF (WF_build ops) hwalk
    simpa using this
  cases hwfn with
  | @mk _ k b v ch hterm hnoterm hkeys hkey hw =>
    refine ⟨⟨?_, ?_⟩, ?_, ?_⟩
    · intro hb
      simp only [Node.terminal] at hb
      simp only [Node.value]
      exact hterm hb
    · intro hv
      simp only [Node.value] at hv
      simp only [Node.terminal]
      by_contra hb
      have hb' : b = false := by simpa using hb
      rw [hnoterm hb'] at hv
      simp at hv
    · intro hb
      simp only [Node.terminal] at hb
      simp only [Node.value]
      exact hnoterm hb
    · intro w hv
      simp only [Node.value] at hv
      cases hb : b with
      | true =>
        have hw' : w = String.mk cs := by
          rw [hterm hb] at hv
          exact (Option.some.inj hv).symm
        rw [hw']
        rfl
      | false =>
        rw [hnoterm hb] at hv
        simp at hv

theorem terminal_value_invariant_witness :
    WF [] (build [Op.ins "an"]).root ∧
    ∀ (cs : List Char) (n : Node), walk cs (build [Op.ins "an"]).root = some n →
      (n.terminal = true ↔ n.value = some (String.mk cs)) ∧
      (n.terminal = false → n.value = none) ∧
      ∀ w : String, n.value = some w → w.length = cs.length :=
  terminal_value_invariant [Op.ins "an"]

/-- C9: the subtree-collection loop of `search` halts and pops exactly one
node per iteration: its iteration count equals the node count of the
worklist subtrees, so starting from the matched node it visits each node of
that subtree exactly once. -/
theorem search_loop_halts_once_per_node :
    (∀ q : List Node, (dfsRun q).1 = queueSize q) ∧
    ∀ (t : Trie) (s : String) (n : Node), walk s.data t.root = some n →
      (dfsRun [n]).1 = Node.size n := by
  refine ⟨dfsRun_count, ?_⟩
  intro t s n _
  rw [dfsRun_count]
  simp [queueSize]

theorem search_loop_halts_once_per_node_witness :
    walk ("a" : String).data (build [Op.ins "a"]).root
      = some (Node.mk (some 'a') true (some "a") []) ∧
    (dfsRun [Node.mk (some 'a') true (some "a") []]).1
      = Node.size (Node.mk (some 'a') true (some "a") []) :=
  ⟨rfl, search_loop_halts_once_per_node.2 (build [Op.ins "a"]) "a" _ rfl⟩

/-- C10: inserting the empty string marks the root itself terminal with
value `""`: afterwards `exists("")` is true and `delete("")` returns true
then false; yet `search` never returns the empty string, for any query. -/
theorem insert_empty_string_marks_root (ops : List Op) :
    ((build ops).insert "").root.terminal = true ∧
    ((build ops).insert "").root.value = some "" ∧
    Trie.exists ((build ops).insert "") "" = true ∧
    (((build ops).insert "").delete "").1 = true ∧
    ((((build ops).insert "").delete "").2.delete "").1 = false ∧
    ∀ q : String, "" ∉ ((build ops).insert "").search q := by
  have hd : ("" : String).data = [] := rfl
  have hwf : WF [] ((build ops).insert "").root :=
    WF_insertAux (WF_build ops) (by simp)
  cases hroot : (build ops).root with
  | mk k b v ch =>
    have h1 : ((build ops).insert "").root = Node.mk k true (some "") ch := by
      show insertAux "" ("" : String).data (build ops).root = _
      rw [hd, hroot]
      rfl
    have h2 : ((((build ops).insert "").delete "").2).root = Node.mk k false none ch := by
      show (deleteAux "" ("" : String).data ((build ops).insert "").root).2 = _
      rw [hd, h1]
      rfl
    refine ⟨by rw [h1]; rfl, by rw [h1]; rfl, ?_, ?_, ?_, ?_⟩
    · show existsAux ("" : String).data ((build ops).insert "").root = true
      rw [hd, h1]
      rfl
    · show (deleteAux "" ("" : String).data ((build ops).insert "").root).1 = true
      rw [hd, h1]
      rfl
    · show (deleteAux "" ("" : String).data ((((build ops).insert "").delete "").2).root).1
        = false
      rw [hd, h2]
      rfl
    · intro q
      by_cases hq : q = ""
      · subst hq
        show ("" : String) ∉ ((build ops).insert "").search ""
        have : ((build ops).insert "").search "" = [] := rfl
        rw [this]
        simp
      · intro hmem
        obtain ⟨_, hpre⟩ := (mem_search_iff hwf hq "").mp hmem
        rw [hd] at hpre
        have : q.data = [] := List.prefix_nil.mp hpre
        exact hq (string_eq_of_data_eq this)

theorem insert_empty_string_marks_root_witness :
    ((build []).insert "").root.terminal = true ∧
    ((build []).insert "").root.value = some "" ∧
    Trie.exists ((build []).insert "") "" = true ∧
    (((build []).insert "").delete "").1 = true ∧
    ((((build []).insert "").delete "").2.delete "").1 = false ∧
    ∀ q : String, "" ∉ ((build []).insert "").search q :=
  insert_empty_string_marks_root []
